import Mathlib

/-!
Shallow embedding of the hierarchical logger registry of this repository
(src/logger.rs, src/lib.rs, src/Level.rs).

Strings are modelled as lists of characters; the source only slices at the
length of a name it already holds, so character positions and byte positions
agree for the inputs the functions are run on.  The children map
(`HashMap<String, Arc<RwLock<Logger>>>`) is modelled as an association
structure with first-match lookup; registry states reachable from the root
never hold two entries with the same key (proved below), where the two agree
with hash-map semantics.  Handles (`Arc<RwLock<Logger>>`) are modelled as the
access path from the root: two handles alias the same node exactly when their
paths agree.  Locking is modelled by atomic steps: each registry operation is
one step function on the whole tree, which is the linearized behaviour the
per-node locks enforce.
-/

namespace Logging

/-- Characters of a Rust string slice. -/
abbrev Str := List Char

/-- The type alias from src/lib.rs line 12: `pub type LogLevel = i32;`,
modelled as `Int`; the core never does arithmetic on levels, only comparisons. -/
abbrev LogLevel := Int

/-- The value of `LogLevel::MAX`, that is `i32::MAX`, used by `get_root`
(src/logger.rs line 69) as the initial root level. -/
def i32MAX : LogLevel := 2147483647

/-- An `Arc<dyn Handler>` reference (src/lib.rs line 294); `Arc::clone` yields
the same reference, so a handler reference is just an identity token. -/
structure HandlerRef where
  id : Nat
deriving DecidableEq, Repr

/-- One synchronous handler invocation
`handler.log(level, msg.clone(), self.name.to_string())` performed by
`Logger::log` (src/logger.rs line 20). -/
structure Event where
  level : LogLevel
  msg : Str
  loggerName : Str
  handler : HandlerRef
deriving DecidableEq, Repr

mutual
/-- `struct Logger` (src/logger.rs lines 8-13): a severity threshold, the
handler list, the fully-qualified name, and the children map. -/
inductive Logger : Type where
  | node (level : LogLevel) (handlers : List HandlerRef) (name : Str)
      (children : Children) : Logger
/-- The children map `HashMap<String, Arc<RwLock<Logger>>>` of a node,
as an association structure keyed by the immediate child segment name. -/
inductive Children : Type where
  | nil : Children
  | cons (key : Str) (child : Logger) (rest : Children) : Children
end

def Logger.level : Logger → LogLevel
  | .node l _ _ _ => l

def Logger.handlers : Logger → List HandlerRef
  | .node _ h _ _ => h

def Logger.name : Logger → Str
  | .node _ _ n _ => n

def Logger.children : Logger → Children
  | .node _ _ _ c => c

/-- `HashMap::get`: look a key up in the children map. -/
def Children.get : Children → Str → Option Logger
  | .nil, _ => none
  | .cons k c rest, key => if k = key then some c else rest.get key

/-- `HashMap::insert`: replace the entry of an existing key, or add the key.
`Logger::get_child` calls it only for a key `get` just failed on; it is also
how the model writes a mutated child node back into the shared map (in the
source the map entry is an `Arc`, so in-place mutation of the child is
visible through the unchanged map entry). -/
def Children.insert : Children → Str → Logger → Children
  | .nil, key, v => .cons key v .nil
  | .cons k c rest, key, v =>
      if k = key then .cons key v rest else .cons k c (rest.insert key v)

/-- The keys of the children map. -/
def Children.keys : Children → List Str
  | .nil => []
  | .cons k _ rest => k :: rest.keys

/-- Rebuild a node with one child entry replaced or added. -/
def Logger.withChild (self : Logger) (key : Str) (c : Logger) : Logger :=
  .node self.level self.handlers self.name (self.children.insert key c)

/-- `Logger::log` (src/logger.rs lines 15-22): drop the message when
`level < self.level`, otherwise call every handler in order.  The method takes
`&self`, so it returns only the list of handler invocations it performs. -/
def Logger.log (self : Logger) (msg : Str) (level : LogLevel) : List Event :=
  if level < self.level then []
  else self.handlers.map (fun handler => ⟨level, msg, self.name, handler⟩)

mutual
/-- `Logger::set_level` (src/logger.rs lines 23-29): store the new level and
recurse into every child currently in the map. -/
def Logger.set_level : Logger → LogLevel → Logger
  | .node _ hs n cs, level => .node level hs n (setLevelChildren cs level)
/-- The `for child in self.children.values_mut()` loop of `Logger::set_level`. -/
def setLevelChildren : Children → LogLevel → Children
  | .nil, _ => .nil
  | .cons k c rest, level => .cons k (c.set_level level) (setLevelChildren rest level)
end

mutual
/-- `Logger::add_handler` (src/logger.rs lines 30-36): push the handler at the
end of the list and recurse into every child currently in the map. -/
def Logger.add_handler : Logger → HandlerRef → Logger
  | .node lv hs n cs, h => .node lv (hs ++ [h]) n (addHandlerChildren cs h)
/-- The `for child in self.children.values_mut()` loop of `Logger::add_handler`. -/
def addHandlerChildren : Children → HandlerRef → Children
  | .nil, _ => .nil
  | .cons k c rest, h => .cons k (c.add_handler h) (addHandlerChildren rest h)
end

/-- The expression `remaining["::".len()..].split("::").next().expect(..)` of
`Logger::get_child` (src/logger.rs line 40): the piece of the string before the
first occurrence of `"::"` (the whole string when `"::"` does not occur;
`split` always yields a first piece, so the `expect` never fails). -/
def splitFirst : Str → Str
  | [] => []
  | c :: rest =>
    if c = ':' ∧ rest.head? = some ':' then [] else c :: splitFirst rest

/-- `Logger::get_child` (src/logger.rs lines 37-60), with the slice
`remaining = name[self.name.len()..]` passed explicitly.  At each entry the
source recomputes `remaining` from the stored name of the node it descends
into; the stored name of every child in a state reachable from the root is
`parent.name ++ "::" ++ key` (creation at line 47 builds exactly that name, and
nothing ever rewrites a name; theorem `foldl_namesOk` below proves the
invariant for every reachable state), so the recomputed slice is the one
carried here:
when the node is entered with `remaining = "::" ++ sub_name ++ rest`, the child
named  `self.name ++ "::" ++ sub_name` is entered with slice `rest`, that is
`tail.drop sub_name.length`.  The `assert!(remaining.starts_with("::"))` at
line 39 is the error case; a failed assert is a Rust panic, which poisons the
registry lock, so no registry state after a failure is modelled.  The returned
handle is the access path of the resolved node. -/
def Logger.get_child_rem (self : Logger) (remaining : Str) :
    Except Unit (Logger × List Str) :=
  match remaining with
  | ':' :: ':' :: tail =>
    let sub_name := splitFirst tail
    match self.children.get sub_name with
    | some sub_logger =>
      if sub_name.length + 2 = remaining.length then
        .ok (self, [sub_name])
      else
        match sub_logger.get_child_rem (tail.drop sub_name.length) with
        | .ok (sub2, path) => .ok (self.withChild sub_name sub2, sub_name :: path)
        | .error e => .error e
    | none =>
      let logger : Logger :=
        .node self.level self.handlers (self.name ++ ':' :: ':' :: sub_name) .nil
      let self1 := self.withChild sub_name logger
      if sub_name.length + 2 = remaining.length then
        .ok (self1, [sub_name])
      else
        match logger.get_child_rem (tail.drop sub_name.length) with
        | .ok (sub2, path) => .ok (self1.withChild sub_name sub2, sub_name :: path)
        | .error e => .error e
  | _ => .error ()
termination_by remaining.length
decreasing_by
  all_goals simp; omega

/-- `Logger::get_child` entry point: the source computes
`remaining = name[self.name.len()..]` from the full name. -/
def Logger.get_child (self : Logger) (name : Str) : Except Unit (Logger × List Str) :=
  self.get_child_rem (name.drop self.name.length)

/-- The `Logger` value that `get_root` (src/logger.rs lines 66-78) installs in
the `ROOT` once-cell on first use, with the `default_log_console` feature
disabled: level `LogLevel::MAX`, no handlers, the empty name, no children. -/
def get_root : Logger := .node i32MAX [] [] .nil

/-- `get_logger` (src/logger.rs lines 62-65): resolve a full name starting
from the root.  The model passes the current root state explicitly. -/
def get_logger (name : Str) (root : Logger) : Except Unit (Logger × List Str) :=
  root.get_child name

/-- `logging::set_level` (src/lib.rs lines 380-382): `set_level` on the root. -/
def global_set_level (root : Logger) (level : LogLevel) : Logger :=
  root.set_level level

/-- `logging::add_handler` (src/lib.rs lines 409-411): `add_handler` on the root. -/
def global_add_handler (root : Logger) (handler : HandlerRef) : Logger :=
  root.add_handler handler

/-- Follow an access path from a node: the node a handle refers to. -/
def Logger.nodeAt : Logger → List Str → Option Logger
  | t, [] => some t
  | t, k :: p =>
    match t.children.get k with
    | some c => c.nodeAt p
    | none => none

/-- Apply an in-place mutation through a handle: the effect, on the whole
tree, of calling a `&mut self` method on the node an access path refers to
(the source reaches the node through `Arc<RwLock<_>>` handles). -/
def Logger.updateAt : Logger → List Str → (Logger → Logger) → Logger
  | t, [], f => f t
  | t, k :: p, f =>
    match t.children.get k with
    | some c => t.withChild k (c.updateAt p f)
    | none => t

/-- The public `Logger::log` of src/lib.rs lines 61-64: it takes a read lock
on the node the handle refers to and calls the inner `log`, which takes
`&self`; the registry state is returned unchanged, together with the handler
invocations made. -/
def log_op (t : Logger) (p : List Str) (msg : Str) (level : LogLevel) :
    Logger × List Event :=
  (t, match t.nodeAt p with
      | some n => n.log msg level
      | none => [])

/-- One public registry operation, acting on the whole registry state as one
atomic step (the linearization the per-node locks enforce). -/
inductive Op : Type where
  | resolve (name : Str)
  | setLevel (path : List Str) (level : LogLevel)
  | addHandler (path : List Str) (handler : HandlerRef)
  | logMsg (path : List Str) (msg : Str) (level : LogLevel)

/-- The registry state after one operation.  A failed `resolve` is a panic at
the very first assert, before anything is inserted, so the state is unchanged
(and the registry lock is poisoned, which ends every later use). -/
def step (t : Logger) : Op → Logger
  | .resolve name =>
    match get_logger name t with
    | .ok (t2, _) => t2
    | .error _ => t
  | .setLevel p level => t.updateAt p (fun n => n.set_level level)
  | .addHandler p h => t.updateAt p (fun n => n.add_handler h)
  | .logMsg p msg level => (log_op t p msg level).1

/-- Every children map in the tree holds at most one entry per key. -/
def keysUnique (t : Logger) : Prop :=
  ∀ q n, t.nodeAt q = some n → n.children.keys.Nodup

end Logging

namespace Logging


/-- List-style induction over a children map, with the child nodes opaque. -/
theorem Children.inductList {motive : Children → Prop} (hnil : motive .nil)
    (hcons : ∀ k c rest, motive rest → motive (.cons k c rest)) :
    ∀ cs : Children, motive cs
  | .nil => hnil
  | .cons k c rest => hcons k c rest (Children.inductList hnil hcons rest)

theorem withChild_level (self : Logger) (k : Str) (c : Logger) :
    (self.withChild k c).level = self.level := by
  cases self; rfl

theorem withChild_handlers (self : Logger) (k : Str) (c : Logger) :
    (self.withChild k c).handlers = self.handlers := by
  cases self; rfl

theorem withChild_name (self : Logger) (k : Str) (c : Logger) :
    (self.withChild k c).name = self.name := by
  cases self; rfl

theorem withChild_children (self : Logger) (k : Str) (c : Logger) :
    (self.withChild k c).children = self.children.insert k c := by
  cases self; rfl

theorem Children.get_insert (cs : Children) (k : Str) (v : Logger) (j : Str) :
    (cs.insert k v).get j = if j = k then some v else cs.get j := by
  induction cs using Children.inductList with
  | hnil =>
    by_cases h : j = k
    · subst h; simp [Children.insert, Children.get]
    · have h2 : ¬ k = j := fun h3 => h h3.symm
      simp [Children.insert, Children.get, h, h2]
  | hcons k2 c rest ih =>
    by_cases h1 : k2 = k
    · subst h1
      by_cases h2 : j = k2
      · subst h2; simp [Children.insert, Children.get]
      · have h3 : ¬ k2 = j := fun h4 => h2 h4.symm
        simp [Children.insert, Children.get, h2, h3]
    · by_cases h2 : k2 = j
      · have h3 : ¬ j = k := fun h4 => h1 (h2.trans h4)
        simp [Children.insert, Children.get, h1, h2, h3]
      · simp [Children.insert, Children.get, h1, h2, ih]

theorem Children.insert_self (cs : Children) (k : Str) (v : Logger)
    (h : cs.get k = some v) : cs.insert k v = cs := by
  induction cs using Children.inductList with
  | hnil => simp [Children.get] at h
  | hcons k2 c rest ih =>
    by_cases h1 : k2 = k
    · subst h1
      simp [Children.get] at h
      simp [Children.insert, h]
    · simp [Children.get, h1] at h
      simp [Children.insert, h1, ih h]

theorem Children.insert_insert (cs : Children) (k : Str) (v w : Logger) :
    (cs.insert k v).insert k w = cs.insert k w := by
  induction cs using Children.inductList with
  | hnil => simp [Children.insert]
  | hcons k2 c rest ih =>
    by_cases h1 : k2 = k <;> simp [Children.insert, h1, ih]

theorem Children.keys_insert_present (cs : Children) (k : Str) (v w : Logger)
    (h : cs.get k = some v) : (cs.insert k w).keys = cs.keys := by
  induction cs using Children.inductList with
  | hnil => simp [Children.get] at h
  | hcons k2 c rest ih =>
    by_cases h1 : k2 = k
    · subst h1; simp [Children.insert, Children.keys]
    · simp [Children.get, h1] at h
      simp [Children.insert, Children.keys, h1, ih h]

theorem Children.keys_insert_absent (cs : Children) (k : Str) (w : Logger)
    (h : cs.get k = none) : (cs.insert k w).keys = cs.keys ++ [k] := by
  induction cs using Children.inductList with
  | hnil => simp [Children.insert, Children.keys]
  | hcons k2 c rest ih =>
    by_cases h1 : k2 = k
    · subst h1; simp [Children.get] at h
    · simp [Children.get, h1] at h
      simp [Children.insert, Children.keys, h1, ih h]

theorem Children.get_none_iff (cs : Children) (k : Str) :
    cs.get k = none ↔ k ∉ cs.keys := by
  induction cs using Children.inductList with
  | hnil => simp [Children.get, Children.keys]
  | hcons k2 c rest ih =>
    by_cases h1 : k2 = k
    · subst h1; simp [Children.get, Children.keys]
    · simp [Children.get, Children.keys, h1, ih]
      intro _h2
      exact fun h3 => h1 (h3.symm)

theorem splitFirst_prefixOf (s : Str) : splitFirst s <+: s := by
  induction s with
  | nil => simp [splitFirst]
  | cons c rest ih =>
    rw [splitFirst]
    split
    · simp
    · simp [List.cons_prefix_cons, ih]

theorem splitFirst_length_le (s : Str) : (splitFirst s).length ≤ s.length :=
  (splitFirst_prefixOf s).length_le

theorem splitFirst_eq_of_length (s : Str) (h : (splitFirst s).length = s.length) :
    splitFirst s = s :=
  (splitFirst_prefixOf s).eq_of_length h

/-- When `splitFirst` does not consume the whole string, it stopped exactly at
an occurrence of the separator. -/
theorem splitFirst_drop (s : Str) (h : splitFirst s ≠ s) :
    ∃ r, s = splitFirst s ++ ':' :: ':' :: r := by
  induction s with
  | nil => simp [splitFirst] at h
  | cons c rest ih =>
    rw [splitFirst]
    split
    next hc =>
      obtain ⟨hc1, hc2⟩ := hc
      subst hc1
      cases rest with
      | nil => simp at hc2
      | cons c2 r =>
        have hc3 : c2 = ':' := by simpa using hc2
        subst hc3
        exact ⟨r, by simp⟩
    next hc =>
      rw [splitFirst] at h
      rw [if_neg hc] at h
      have h2 : splitFirst rest ≠ rest := fun h3 => h (by rw [h3])
      obtain ⟨r, hr⟩ := ih h2
      refine ⟨r, ?_⟩
      conv_lhs => rw [hr]
      simp

theorem set_level_level (t : Logger) (l : LogLevel) : (t.set_level l).level = l := by
  cases t; rfl

theorem set_level_handlers (t : Logger) (l : LogLevel) :
    (t.set_level l).handlers = t.handlers := by
  cases t; rfl

theorem set_level_name (t : Logger) (l : LogLevel) : (t.set_level l).name = t.name := by
  cases t; rfl

theorem set_level_children (t : Logger) (l : LogLevel) :
    (t.set_level l).children = setLevelChildren t.children l := by
  cases t; rfl

theorem add_handler_level (t : Logger) (h : HandlerRef) :
    (t.add_handler h).level = t.level := by
  cases t; rfl

theorem add_handler_handlers (t : Logger) (h : HandlerRef) :
    (t.add_handler h).handlers = t.handlers ++ [h] := by
  cases t; rfl

theorem add_handler_name (t : Logger) (h : HandlerRef) :
    (t.add_handler h).name = t.name := by
  cases t; rfl

theorem add_handler_children (t : Logger) (h : HandlerRef) :
    (t.add_handler h).children = addHandlerChildren t.children h := by
  cases t; rfl

theorem setLevelChildren_get (cs : Children) (l : LogLevel) (k : Str) :
    (setLevelChildren cs l).get k = (cs.get k).map (fun c => c.set_level l) := by
  induction cs using Children.inductList with
  | hnil => simp [setLevelChildren, Children.get]
  | hcons k2 c rest ih =>
    by_cases h1 : k2 = k <;> simp [setLevelChildren, Children.get, h1, ih]

theorem addHandlerChildren_get (cs : Children) (h : HandlerRef) (k : Str) :
    (addHandlerChildren cs h).get k = (cs.get k).map (fun c => c.add_handler h) := by
  induction cs using Children.inductList with
  | hnil => simp [addHandlerChildren, Children.get]
  | hcons k2 c rest ih =>
    by_cases h1 : k2 = k <;> simp [addHandlerChildren, Children.get, h1, ih]

theorem setLevelChildren_keys (cs : Children) (l : LogLevel) :
    (setLevelChildren cs l).keys = cs.keys := by
  induction cs using Children.inductList with
  | hnil => simp [setLevelChildren]
  | hcons k2 c rest ih => simp [setLevelChildren, Children.keys, ih]

theorem addHandlerChildren_keys (cs : Children) (h : HandlerRef) :
    (addHandlerChildren cs h).keys = cs.keys := by
  induction cs using Children.inductList with
  | hnil => simp [addHandlerChildren]
  | hcons k2 c rest ih => simp [addHandlerChildren, Children.keys, ih]

/-- Every node of the subtree carries the new level after `set_level`,
rephrased through handle paths. -/
theorem nodeAt_set_level (q : List Str) :
    ∀ (t : Logger) (l : LogLevel),
      (t.set_level l).nodeAt q = (t.nodeAt q).map (fun n => n.set_level l) := by
  induction q with
  | nil => intro t l; simp [Logger.nodeAt]
  | cons k q ih =>
    intro t l
    rw [Logger.nodeAt, Logger.nodeAt, set_level_children, setLevelChildren_get]
    cases t.children.get k with
    | none => simp
    | some c => simp [ih]

theorem nodeAt_add_handler (q : List Str) :
    ∀ (t : Logger) (h : HandlerRef),
      (t.add_handler h).nodeAt q = (t.nodeAt q).map (fun n => n.add_handler h) := by
  induction q with
  | nil => intro t h; simp [Logger.nodeAt]
  | cons k q ih =>
    intro t h
    rw [Logger.nodeAt, Logger.nodeAt, add_handler_children, addHandlerChildren_get]
    cases t.children.get k with
    | none => simp
    | some c => simp [ih]

mutual
theorem set_level_idem : ∀ (t : Logger) (l : LogLevel),
    (t.set_level l).set_level l = t.set_level l
  | .node _ hs n cs, l => by
    rw [Logger.set_level, Logger.set_level, setLevelChildren_idem cs l]
theorem setLevelChildren_idem : ∀ (cs : Children) (l : LogLevel),
    setLevelChildren (setLevelChildren cs l) l = setLevelChildren cs l
  | .nil, l => rfl
  | .cons k c rest, l => by
    rw [setLevelChildren, setLevelChildren, set_level_idem c l,
      setLevelChildren_idem rest l]
end

theorem nodeAt_append (p : List Str) :
    ∀ (t : Logger) (r : List Str),
      t.nodeAt (p ++ r) = (t.nodeAt p).bind (fun n => n.nodeAt r) := by
  induction p with
  | nil => intro t r; simp [Logger.nodeAt]
  | cons k p ih =>
    intro t r
    rw [List.cons_append, Logger.nodeAt, Logger.nodeAt]
    cases t.children.get k with
    | none => simp
    | some c => simp [ih]

theorem withChild_withChild (t : Logger) (k : Str) (x y : Logger) :
    (t.withChild k x).withChild k y = t.withChild k y := by
  cases t
  simp [Logger.withChild, Logger.children, Logger.level, Logger.handlers, Logger.name,
    Children.insert_insert]

theorem updateAt_none (p : List Str) :
    ∀ (t : Logger) (f : Logger → Logger), t.nodeAt p = none → t.updateAt p f = t := by
  induction p with
  | nil => intro t f h; simp [Logger.nodeAt] at h
  | cons k p ih =>
    intro t f h
    rw [Logger.nodeAt] at h
    rw [Logger.updateAt]
    cases hk : t.children.get k with
    | none => simp
    | some c =>
      rw [hk] at h
      cases t
      simp_all [Logger.withChild, Logger.children, Logger.level, Logger.handlers,
        Logger.name, ih c f h]
      exact Children.insert_self _ _ _ hk

theorem updateAt_nodeAt (p : List Str) :
    ∀ (t : Logger) (n : Logger) (f : Logger → Logger) (r : List Str),
      t.nodeAt p = some n → (t.updateAt p f).nodeAt (p ++ r) = (f n).nodeAt r := by
  induction p with
  | nil =>
    intro t n f r h
    rw [Logger.nodeAt] at h
    injection h with h
    subst h
    simp [Logger.updateAt, Logger.nodeAt]
  | cons k p ih =>
    intro t n f r h
    rw [Logger.nodeAt] at h
    cases hk : t.children.get k with
    | none => rw [hk] at h; exact absurd h (by simp)
    | some c =>
      rw [hk] at h
      rw [Logger.updateAt, hk, List.cons_append, Logger.nodeAt, withChild_children,
        Children.get_insert]
      simp [ih c n f r h]

theorem updateAt_updateAt (p : List Str) :
    ∀ (t : Logger) (f g : Logger → Logger),
      (t.updateAt p f).updateAt p g = t.updateAt p (fun x => g (f x)) := by
  induction p with
  | nil => intro t f g; simp [Logger.updateAt]
  | cons k p ih =>
    intro t f g
    rw [Logger.updateAt]
    cases hk : t.children.get k with
    | none => rw [Logger.updateAt, hk, Logger.updateAt, hk]
    | some c =>
      rw [Logger.updateAt, hk, Logger.updateAt, withChild_children, Children.get_insert]
      simp [withChild_withChild, ih, hk]

/-- The observations of one node that operations addressed elsewhere must keep:
level, handlers, name and the set of child keys. -/
def Logger.obs (n : Logger) : LogLevel × List HandlerRef × Str × List Str :=
  (n.level, n.handlers, n.name, n.children.keys)

/-- A mutation through a handle leaves every node outside the addressed
subtree with its level, handlers, name and child keys unchanged. -/
theorem updateAt_obs_off (p : List Str) :
    ∀ (t : Logger) (f : Logger → Logger) (q : List Str), ¬ p <+: q →
      ((t.updateAt p f).nodeAt q).map Logger.obs = (t.nodeAt q).map Logger.obs := by
  induction p with
  | nil => intro t f q h; exact absurd (List.nil_prefix) h
  | cons k p ih =>
    intro t f q h
    rw [Logger.updateAt]
    cases hk : t.children.get k with
    | none => rfl
    | some c =>
      cases q with
      | nil =>
        simp [Logger.nodeAt, Logger.obs, withChild_level, withChild_handlers,
          withChild_name, withChild_children, Children.keys_insert_present _ _ _ _ hk]
      | cons j q2 =>
        rw [Logger.nodeAt, Logger.nodeAt, withChild_children, Children.get_insert]
        by_cases hj : j = k
        · subst hj
          rw [if_pos rfl, hk]
          have h2 : ¬ p <+: q2 := fun hp => h (by simp [List.cons_prefix_cons, hp])
          exact ih c f q2 h2
        · rw [if_neg hj]

/-- On a slice that does not start with the separator, `get_child` fails the
assert at src/logger.rs line 39. -/
theorem get_child_rem_not_sep (self : Logger) (rem : Str)
    (h : ∀ tail, rem ≠ ':' :: ':' :: tail) :
    self.get_child_rem rem = .error () := by
  rw [Logger.get_child_rem.eq_def]
  split
  next tail => exact absurd rfl (h tail)
  next => rfl

/-- A successful resolution never changes the level, the handlers or the name
of any node already present (it only adds children). -/
theorem get_child_rem_frame (self : Logger) (rem : Str) :
    ∀ (t2 : Logger) (p : List Str), self.get_child_rem rem = .ok (t2, p) →
      ∀ (q : List Str) (n : Logger), self.nodeAt q = some n →
        ∃ n2, t2.nodeAt q = some n2 ∧ n2.level = n.level ∧
          n2.handlers = n.handlers ∧ n2.name = n.name := by
  induction self, rem using Logger.get_child_rem.induct
  case case1 =>
    rename_i self tail sub_name sub_logger hget hlen
    intro t2 p h q n hq
    rw [Logger.get_child_rem.eq_def] at h
    simp only [hget, if_pos hlen] at h
    simp only [Except.ok.injEq, Prod.mk.injEq] at h
    obtain ⟨ht2, hp⟩ := h
    subst ht2
    exact ⟨n, hq, rfl, rfl, rfl⟩
  case case2 =>
    rename_i self tail sub_name sub_logger hget sub2 path hrec hlen ih
    intro t2 p h q n hq
    rw [Logger.get_child_rem.eq_def] at h
    simp only [hget, if_neg hlen, hrec] at h
    simp only [Except.ok.injEq, Prod.mk.injEq] at h
    obtain ⟨ht2, hp⟩ := h
    subst ht2
    cases q with
    | nil =>
      rw [Logger.nodeAt] at hq
      injection hq with hq
      subst hq
      exact ⟨self.withChild (splitFirst tail) sub2, by rw [Logger.nodeAt],
        withChild_level _ _ _, withChild_handlers _ _ _, withChild_name _ _ _⟩
    | cons j q2 =>
      rw [Logger.nodeAt] at hq
      by_cases hj : j = splitFirst tail
      · subst hj
        rw [hget] at hq
        obtain ⟨n2, hn2, hobs⟩ := ih sub2 path hrec q2 n hq
        refine ⟨n2, ?_, hobs⟩
        rw [Logger.nodeAt, withChild_children, Children.get_insert, if_pos rfl]
        exact hn2
      · refine ⟨n, ?_, rfl, rfl, rfl⟩
        rw [Logger.nodeAt, withChild_children, Children.get_insert, if_neg hj]
        exact hq
  case case3 =>
    rename_i self tail sub_name sub_logger hget e hrec hlen ih
    intro t2 p h q n hq
    rw [Logger.get_child_rem.eq_def] at h
    have hlen2 : ¬ (splitFirst tail).length = tail.length := by
      intro hc
      apply hlen
      show (splitFirst tail).length + 2 = (':' :: ':' :: tail).length
      simp [hc]
    simp [hget, hrec, hlen2] at h
  case case4 =>
    rename_i self tail sub_name hget hlen
    intro t2 p h q n hq
    rw [Logger.get_child_rem.eq_def] at h
    simp only [hget, if_pos hlen] at h
    simp only [Except.ok.injEq, Prod.mk.injEq] at h
    obtain ⟨ht2, hp⟩ := h
    subst ht2
    cases q with
    | nil =>
      rw [Logger.nodeAt] at hq
      injection hq with hq
      subst hq
      exact ⟨_, by rw [Logger.nodeAt],
        withChild_level _ _ _, withChild_handlers _ _ _, withChild_name _ _ _⟩
    | cons j q2 =>
      rw [Logger.nodeAt] at hq
      by_cases hj : j = splitFirst tail
      · subst hj
        rw [hget] at hq
        exact absurd hq (by simp)
      · refine ⟨n, ?_, rfl, rfl, rfl⟩
        rw [Logger.nodeAt, withChild_children, Children.get_insert, if_neg hj]
        exact hq
  case case5 =>
    rename_i self tail sub_name hget logger sub2 path hrec hlen ih
    intro t2 p h q n hq
    rw [Logger.get_child_rem.eq_def] at h
    simp only [hget, if_neg hlen, hrec] at h
    rw [withChild_withChild] at h
    simp only [Except.ok.injEq, Prod.mk.injEq] at h
    obtain ⟨ht2, hp⟩ := h
    subst ht2
    cases q with
    | nil =>
      rw [Logger.nodeAt] at hq
      injection hq with hq
      subst hq
      exact ⟨_, by rw [Logger.nodeAt],
        withChild_level _ _ _, withChild_handlers _ _ _, withChild_name _ _ _⟩
    | cons j q2 =>
      rw [Logger.nodeAt] at hq
      by_cases hj : j = splitFirst tail
      · subst hj
        rw [hget] at hq
        exact absurd hq (by simp)
      · refine ⟨n, ?_, rfl, rfl, rfl⟩
        rw [Logger.nodeAt, withChild_children, Children.get_insert, if_neg hj]
        exact hq
  case case6 =>
    rename_i self tail sub_name hget logger e hrec hlen ih
    intro t2 p h q n hq
    rw [Logger.get_child_rem.eq_def] at h
    have hlen2 : ¬ (splitFirst tail).length = tail.length := by
      intro hc
      apply hlen
      show (splitFirst tail).length + 2 = (':' :: ':' :: tail).length
      simp [hc]
    simp [hget, hrec, hlen2] at h
  case case7 =>
    rename_i self rem hsep
    intro t2 p h q n hq
    rw [get_child_rem_not_sep self rem (fun tail h2 => hsep tail h2)] at h
    exact absurd h (by simp)

/-- On a slice that does start with the separator, `get_child` always
succeeds: the assert of src/logger.rs line 39 can only fail at the top entry
from `get_logger`, because each recursive entry receives the slice right
after an occurrence of the separator. -/
theorem get_child_rem_ok_sep (self : Logger) (rem : Str) :
    (∃ tail, rem = ':' :: ':' :: tail) →
      ∃ x, self.get_child_rem rem = .ok x := by
  induction self, rem using Logger.get_child_rem.induct
  case case1 =>
    rename_i self tail sub_name sub_logger hget hlen
    intro _
    rw [Logger.get_child_rem.eq_def]
    simp only [hget, if_pos hlen]
    exact ⟨_, rfl⟩
  case case2 =>
    rename_i self tail sub_name sub_logger hget sub2 path hrec hlen ih
    intro _
    rw [Logger.get_child_rem.eq_def]
    simp only [hget, if_neg hlen, hrec]
    exact ⟨_, rfl⟩
  case case3 =>
    rename_i self tail sub_name sub_logger hget e hrec hlen ih
    intro _
    have hne : splitFirst tail ≠ tail := by
      intro hc
      apply hlen
      show (splitFirst tail).length + 2 = (':' :: ':' :: tail).length
      simp [hc]
    obtain ⟨r, hr⟩ := splitFirst_drop tail hne
    have hdrop : tail.drop (splitFirst tail).length = ':' :: ':' :: r := by
      have h2 := congrArg (List.drop (splitFirst tail).length) hr
      rwa [List.drop_left] at h2
    obtain ⟨x, hx⟩ := ih ⟨r, hdrop⟩
    rw [hx] at hrec
    exact absurd hrec (by simp)
  case case4 =>
    rename_i self tail sub_name hget hlen
    intro _
    rw [Logger.get_child_rem.eq_def]
    simp only [hget, if_pos hlen]
    exact ⟨_, rfl⟩
  case case5 =>
    rename_i self tail sub_name hget logger sub2 path hrec hlen ih
    intro _
    rw [Logger.get_child_rem.eq_def]
    simp only [hget, if_neg hlen, hrec]
    exact ⟨_, rfl⟩
  case case6 =>
    rename_i self tail sub_name hget logger e hrec hlen ih
    intro _
    have hne : splitFirst tail ≠ tail := by
      intro hc
      apply hlen
      show (splitFirst tail).length + 2 = (':' :: ':' :: tail).length
      simp [hc]
    obtain ⟨r, hr⟩ := splitFirst_drop tail hne
    have hdrop : tail.drop (splitFirst tail).length = ':' :: ':' :: r := by
      have h2 := congrArg (List.drop (splitFirst tail).length) hr
      rwa [List.drop_left] at h2
    obtain ⟨x, hx⟩ := ih ⟨r, hdrop⟩
    rw [hx] at hrec
    exact absurd hrec (by simp)
  case case7 =>
    rename_i self rem hsep
    intro hshape
    obtain ⟨tail, htail⟩ := hshape
    exact absurd htail (by intro h2; exact hsep tail h2)

/-- Resolving a name a second time returns the registry unchanged and the
same handle: the node already exists and no insertion happens. -/
theorem get_child_rem_idem (self : Logger) (rem : Str) :
    ∀ (t2 : Logger) (p : List Str), self.get_child_rem rem = .ok (t2, p) →
      t2.get_child_rem rem = .ok (t2, p) := by
  induction self, rem using Logger.get_child_rem.induct
  case case1 =>
    rename_i self tail sub_name sub_logger hget hlen
    intro t2 p h
    rw [Logger.get_child_rem.eq_def] at h
    simp only [hget, if_pos hlen] at h
    simp only [Except.ok.injEq, Prod.mk.injEq] at h
    obtain ⟨ht2, hp⟩ := h
    subst ht2
    subst hp
    rw [Logger.get_child_rem.eq_def]
    simp only [hget, if_pos hlen]
  case case2 =>
    rename_i self tail sub_name sub_logger hget sub2 path hrec hlen ih
    intro t2 p h
    rw [Logger.get_child_rem.eq_def] at h
    simp only [hget, if_neg hlen, hrec] at h
    simp only [Except.ok.injEq, Prod.mk.injEq] at h
    obtain ⟨ht2, hp⟩ := h
    subst ht2
    subst hp
    rw [Logger.get_child_rem.eq_def]
    have hget2 : (self.withChild (splitFirst tail) sub2).children.get (splitFirst tail)
        = some sub2 := by
      rw [withChild_children, Children.get_insert, if_pos rfl]
    simp only [hget2, if_neg hlen, ih sub2 path hrec]
    rw [withChild_withChild]
  case case3 =>
    rename_i self tail sub_name sub_logger hget e hrec hlen ih
    intro t2 p h
    rw [Logger.get_child_rem.eq_def] at h
    have hlen2 : ¬ (splitFirst tail).length = tail.length := by
      intro hc
      apply hlen
      show (splitFirst tail).length + 2 = (':' :: ':' :: tail).length
      simp [hc]
    simp [hget, hrec, hlen2] at h
  case case4 =>
    rename_i self tail sub_name hget hlen
    intro t2 p h
    rw [Logger.get_child_rem.eq_def] at h
    simp only [hget, if_pos hlen] at h
    simp only [Except.ok.injEq, Prod.mk.injEq] at h
    obtain ⟨ht2, hp⟩ := h
    subst ht2
    subst hp
    rw [Logger.get_child_rem.eq_def]
    have hget2 : (self.withChild (splitFirst tail)
        (Logger.node self.level self.handlers
          (self.name ++ ':' :: ':' :: splitFirst tail) Children.nil)).children.get
          (splitFirst tail) = some (Logger.node self.level self.handlers
            (self.name ++ ':' :: ':' :: splitFirst tail) Children.nil) := by
      rw [withChild_children, Children.get_insert, if_pos rfl]
    simp only [hget2, if_pos hlen]
  case case5 =>
    rename_i self tail sub_name hget logger sub2 path hrec hlen ih
    intro t2 p h
    rw [Logger.get_child_rem.eq_def] at h
    simp only [hget, if_neg hlen, hrec] at h
    rw [withChild_withChild] at h
    simp only [Except.ok.injEq, Prod.mk.injEq] at h
    obtain ⟨ht2, hp⟩ := h
    subst ht2
    subst hp
    rw [Logger.get_child_rem.eq_def]
    have hget2 : (self.withChild (splitFirst tail) sub2).children.get (splitFirst tail)
        = some sub2 := by
      rw [withChild_children, Children.get_insert, if_pos rfl]
    simp only [hget2, if_neg hlen, ih sub2 path hrec]
    rw [withChild_withChild]
  case case6 =>
    rename_i self tail sub_name hget logger e hrec hlen ih
    intro t2 p h
    rw [Logger.get_child_rem.eq_def] at h
    have hlen2 : ¬ (splitFirst tail).length = tail.length := by
      intro hc
      apply hlen
      show (splitFirst tail).length + 2 = (':' :: ':' :: tail).length
      simp [hc]
    simp [hget, hrec, hlen2] at h
  case case7 =>
    rename_i self rem hsep
    intro t2 p h
    rw [get_child_rem_not_sep self rem (fun tail h2 => hsep tail h2)] at h
    exact absurd h (by simp)

theorem splitFirst_stops (tail : Str)
    (hlen : ¬ (splitFirst tail).length + 2 = (':' :: ':' :: tail).length) :
    ∃ r, tail.drop (splitFirst tail).length = ':' :: ':' :: r := by
  have hne : splitFirst tail ≠ tail := by
    intro hc
    apply hlen
    simp [hc]
  obtain ⟨r, hr⟩ := splitFirst_drop tail hne
  refine ⟨r, ?_⟩
  have h2 := congrArg (List.drop (splitFirst tail).length) hr
  rwa [List.drop_left] at h2

/-- Resolution preserves the at-most-one-child-per-name property of every
children map: a key is inserted only right after lookup failed on it, and
every created node starts with an empty map. -/
theorem get_child_rem_keysUnique (self : Logger) (rem : Str) :
    ∀ (t2 : Logger) (p : List Str), self.get_child_rem rem = .ok (t2, p) →
      keysUnique self → keysUnique t2 := by
  induction self, rem using Logger.get_child_rem.induct
  case case1 =>
    rename_i self tail sub_name sub_logger hget hlen
    intro t2 p h hku
    rw [Logger.get_child_rem.eq_def] at h
    simp only [hget, if_pos hlen] at h
    simp only [Except.ok.injEq, Prod.mk.injEq] at h
    obtain ⟨ht2, hp⟩ := h
    subst ht2
    exact hku
  case case2 =>
    rename_i self tail sub_name sub_logger hget sub2 path hrec hlen ih
    intro t2 p h hku
    rw [Logger.get_child_rem.eq_def] at h
    simp only [hget, if_neg hlen, hrec] at h
    simp only [Except.ok.injEq, Prod.mk.injEq] at h
    obtain ⟨ht2, hp⟩ := h
    subst ht2
    have hku_sub : keysUnique sub_logger := by
      intro q n hq
      exact hku (splitFirst tail :: q) n (by rw [Logger.nodeAt, hget]; exact hq)
    have hku2 := ih sub2 path hrec hku_sub
    intro q n hq
    cases q with
    | nil =>
      rw [Logger.nodeAt] at hq
      injection hq with hq
      subst hq
      rw [withChild_children, Children.keys_insert_present _ _ _ _ hget]
      exact hku [] self (by rw [Logger.nodeAt])
    | cons j q2 =>
      rw [Logger.nodeAt, withChild_children, Children.get_insert] at hq
      by_cases hj : j = splitFirst tail
      · rw [if_pos hj] at hq
        exact hku2 q2 n hq
      · rw [if_neg hj] at hq
        exact hku (j :: q2) n (by rw [Logger.nodeAt]; exact hq)
  case case3 =>
    rename_i self tail sub_name sub_logger hget e hrec hlen ih
    intro t2 p h
    rw [Logger.get_child_rem.eq_def] at h
    have hlen2 : ¬ (splitFirst tail).length = tail.length := by
      intro hc
      apply hlen
      show (splitFirst tail).length + 2 = (':' :: ':' :: tail).length
      simp [hc]
    simp [hget, hrec, hlen2] at h
  case case4 =>
    rename_i self tail sub_name hget hlen
    intro t2 p h hku
    rw [Logger.get_child_rem.eq_def] at h
    simp only [hget, if_pos hlen] at h
    simp only [Except.ok.injEq, Prod.mk.injEq] at h
    obtain ⟨ht2, hp⟩ := h
    subst ht2
    intro q n hq
    cases q with
    | nil =>
      rw [Logger.nodeAt] at hq
      injection hq with hq
      subst hq
      rw [withChild_children, Children.keys_insert_absent _ _ _ hget]
      have h1 := hku [] self (by rw [Logger.nodeAt])
      have h2 := (Children.get_none_iff _ _).mp hget
      simp [List.nodup_append, h1, h2]
    | cons j q2 =>
      rw [Logger.nodeAt, withChild_children, Children.get_insert] at hq
      by_cases hj : j = splitFirst tail
      · rw [if_pos hj] at hq
        cases q2 with
        | nil =>
          have hq2 : some (Logger.node self.level self.handlers
              (self.name ++ ':' :: ':' :: splitFirst tail) Children.nil) = some n := hq
          injection hq2 with hq2
          subst hq2
          simp [Logger.children, Children.keys]
        | cons j2 q3 =>
          exact absurd (show (none : Option Logger) = some n from hq) (by simp)
      · rw [if_neg hj] at hq
        exact hku (j :: q2) n (by rw [Logger.nodeAt]; exact hq)
  case case5 =>
    rename_i self tail sub_name hget logger sub2 path hrec hlen ih
    intro t2 p h hku
    rw [Logger.get_child_rem.eq_def] at h
    simp only [hget, if_neg hlen, hrec] at h
    rw [withChild_withChild] at h
    simp only [Except.ok.injEq, Prod.mk.injEq] at h
    obtain ⟨ht2, hp⟩ := h
    subst ht2
    have hku_leaf : keysUnique (Logger.node self.level self.handlers
        (self.name ++ ':' :: ':' :: splitFirst tail) Children.nil) := by
      intro q n hq
      cases q with
      | nil =>
        rw [Logger.nodeAt] at hq
        injection hq with hq
        subst hq
        simp [Logger.children, Children.keys]
      | cons j2 q3 =>
        rw [Logger.nodeAt] at hq
        simp [Logger.children, Children.get] at hq
    have hku2 := ih sub2 path hrec hku_leaf
    intro q n hq
    cases q with
    | nil =>
      rw [Logger.nodeAt] at hq
      injection hq with hq
      subst hq
      rw [withChild_children, Children.keys_insert_absent _ _ _ hget]
      have h1 := hku [] self (by rw [Logger.nodeAt])
      have h2 := (Children.get_none_iff _ _).mp hget
      simp [List.nodup_append, h1, h2]
    | cons j q2 =>
      rw [Logger.nodeAt, withChild_children, Children.get_insert] at hq
      by_cases hj : j = splitFirst tail
      · rw [if_pos hj] at hq
        exact hku2 q2 n hq
      · rw [if_neg hj] at hq
        exact hku (j :: q2) n (by rw [Logger.nodeAt]; exact hq)
  case case6 =>
    rename_i self tail sub_name hget logger e hrec hlen ih
    intro t2 p h
    rw [Logger.get_child_rem.eq_def] at h
    have hlen2 : ¬ (splitFirst tail).length = tail.length := by
      intro hc
      apply hlen
      show (splitFirst tail).length + 2 = (':' :: ':' :: tail).length
      simp [hc]
    simp [hget, hrec, hlen2] at h
  case case7 =>
    rename_i self rem hsep
    intro t2 p h
    rw [get_child_rem_not_sep self rem (fun tail h2 => hsep tail h2)] at h
    exact absurd h (by simp)

/-- All nodes of the tree share one level and one handler list. -/
def uniform (L : LogLevel) (H : List HandlerRef) (t : Logger) : Prop :=
  ∀ q n, t.nodeAt q = some n → n.level = L ∧ n.handlers = H

/-- Resolution preserves a tree-wide uniform level and handler list, because
every node it creates copies both from its parent at creation time. -/
theorem get_child_rem_uniform (L : LogLevel) (H : List HandlerRef)
    (self : Logger) (rem : Str) :
    ∀ (t2 : Logger) (p : List Str), self.get_child_rem rem = .ok (t2, p) →
      uniform L H self → uniform L H t2 := by
  induction self, rem using Logger.get_child_rem.induct
  case case1 =>
    rename_i self tail sub_name sub_logger hget hlen
    intro t2 p h hu
    rw [Logger.get_child_rem.eq_def] at h
    simp only [hget, if_pos hlen] at h
    simp only [Except.ok.injEq, Prod.mk.injEq] at h
    obtain ⟨ht2, hp⟩ := h
    subst ht2
    exact hu
  case case2 =>
    rename_i self tail sub_name sub_logger hget sub2 path hrec hlen ih
    intro t2 p h hu
    rw [Logger.get_child_rem.eq_def] at h
    simp only [hget, if_neg hlen, hrec] at h
    simp only [Except.ok.injEq, Prod.mk.injEq] at h
    obtain ⟨ht2, hp⟩ := h
    subst ht2
    have hu_sub : uniform L H sub_logger := by
      intro q n hq
      exact hu (splitFirst tail :: q) n (by rw [Logger.nodeAt, hget]; exact hq)
    have hu2 := ih sub2 path hrec hu_sub
    intro q n hq
    cases q with
    | nil =>
      rw [Logger.nodeAt] at hq
      injection hq with hq
      subst hq
      rw [withChild_level, withChild_handlers]
      exact hu [] self (by rw [Logger.nodeAt])
    | cons j q2 =>
      rw [Logger.nodeAt, withChild_children, Children.get_insert] at hq
      by_cases hj : j = splitFirst tail
      · rw [if_pos hj] at hq
        exact hu2 q2 n hq
      · rw [if_neg hj] at hq
        exact hu (j :: q2) n (by rw [Logger.nodeAt]; exact hq)
  case case3 =>
    rename_i self tail sub_name sub_logger hget e hrec hlen ih
    intro t2 p h
    rw [Logger.get_child_rem.eq_def] at h
    have hlen2 : ¬ (splitFirst tail).length = tail.length := by
      intro hc
      apply hlen
      show (splitFirst tail).length + 2 = (':' :: ':' :: tail).length
      simp [hc]
    simp [hget, hrec, hlen2] at h
  case case4 =>
    rename_i self tail sub_name hget hlen
    intro t2 p h hu
    rw [Logger.get_child_rem.eq_def] at h
    simp only [hget, if_pos hlen] at h
    simp only [Except.ok.injEq, Prod.mk.injEq] at h
    obtain ⟨ht2, hp⟩ := h
    subst ht2
    intro q n hq
    cases q with
    | nil =>
      rw [Logger.nodeAt] at hq
      injection hq with hq
      subst hq
      rw [withChild_level, withChild_handlers]
      exact hu [] self (by rw [Logger.nodeAt])
    | cons j q2 =>
      rw [Logger.nodeAt, withChild_children, Children.get_insert] at hq
      by_cases hj : j = splitFirst tail
      · rw [if_pos hj] at hq
        cases q2 with
        | nil =>
          have hq2 : some (Logger.node self.level self.handlers
              (self.name ++ ':' :: ':' :: splitFirst tail) Children.nil) = some n := hq
          injection hq2 with hq2
          subst hq2
          have h1 := hu [] self (by rw [Logger.nodeAt])
          simpa [Logger.level, Logger.handlers] using h1
        | cons j2 q3 =>
          exact absurd (show (none : Option Logger) = some n from hq) (by simp)
      · rw [if_neg hj] at hq
        exact hu (j :: q2) n (by rw [Logger.nodeAt]; exact hq)
  case case5 =>
    rename_i self tail sub_name hget logger sub2 path hrec hlen ih
    intro t2 p h hu
    rw [Logger.get_child_rem.eq_def] at h
    simp only [hget, if_neg hlen, hrec] at h
    rw [withChild_withChild] at h
    simp only [Except.ok.injEq, Prod.mk.injEq] at h
    obtain ⟨ht2, hp⟩ := h
    subst ht2
    have hu_leaf : uniform L H (Logger.node self.level self.handlers
        (self.name ++ ':' :: ':' :: splitFirst tail) Children.nil) := by
      intro q n hq
      cases q with
      | nil =>
        rw [Logger.nodeAt] at hq
        injection hq with hq
        subst hq
        have h1 := hu [] self (by rw [Logger.nodeAt])
        simpa [Logger.level, Logger.handlers] using h1
      | cons j2 q3 =>
        rw [Logger.nodeAt] at hq
        simp [Logger.children, Children.get] at hq
    have hu2 := ih sub2 path hrec hu_leaf
    intro q n hq
    cases q with
    | nil =>
      rw [Logger.nodeAt] at hq
      injection hq with hq
      subst hq
      rw [withChild_level, withChild_handlers]
      exact hu [] self (by rw [Logger.nodeAt])
    | cons j q2 =>
      rw [Logger.nodeAt, withChild_children, Children.get_insert] at hq
      by_cases hj : j = splitFirst tail
      · rw [if_pos hj] at hq
        exact hu2 q2 n hq
      · rw [if_neg hj] at hq
        exact hu (j :: q2) n (by rw [Logger.nodeAt]; exact hq)
  case case6 =>
    rename_i self tail sub_name hget logger e hrec hlen ih
    intro t2 p h
    rw [Logger.get_child_rem.eq_def] at h
    have hlen2 : ¬ (splitFirst tail).length = tail.length := by
      intro hc
      apply hlen
      show (splitFirst tail).length + 2 = (':' :: ':' :: tail).length
      simp [hc]
    simp [hget, hrec, hlen2] at h
  case case7 =>
    rename_i self rem hsep
    intro t2 p h
    rw [get_child_rem_not_sep self rem (fun tail h2 => hsep tail h2)] at h
    exact absurd h (by simp)

theorem set_level_keys (t : Logger) (l : LogLevel) :
    (t.set_level l).children.keys = t.children.keys := by
  rw [set_level_children, setLevelChildren_keys]

theorem add_handler_keys (t : Logger) (h : HandlerRef) :
    (t.add_handler h).children.keys = t.children.keys := by
  rw [add_handler_children, addHandlerChildren_keys]

/-- The node created for a segment that was absent from the children map is
initialized from the parent state of that moment: the level of the parent,
a copy of the handler list of the parent, and the name of the parent extended
by the separator and the segment (src/logger.rs lines 44-49). -/
theorem get_child_rem_creates (self : Logger) (tail : Str) (t2 : Logger) (p : List Str)
    (hget : self.children.get (splitFirst tail) = none)
    (h : self.get_child_rem (':' :: ':' :: tail) = .ok (t2, p)) :
    ∃ c, t2.children.get (splitFirst tail) = some c ∧ c.level = self.level ∧
      c.handlers = self.handlers ∧
      c.name = self.name ++ ':' :: ':' :: splitFirst tail := by
  rw [Logger.get_child_rem.eq_def] at h
  simp only [hget] at h
  by_cases hlen : (splitFirst tail).length + 2 = (':' :: ':' :: tail).length
  · rw [if_pos hlen] at h
    simp only [Except.ok.injEq, Prod.mk.injEq] at h
    obtain ⟨ht2, hp⟩ := h
    subst ht2
    refine ⟨Logger.node self.level self.handlers
        (self.name ++ ':' :: ':' :: splitFirst tail) Children.nil, ?_, rfl, rfl, rfl⟩
    rw [withChild_children, Children.get_insert, if_pos rfl]
  · rw [if_neg hlen] at h
    cases hrec : Logger.get_child_rem
        (Logger.node self.level self.handlers
          (self.name ++ ':' :: ':' :: splitFirst tail) Children.nil)
        (tail.drop (splitFirst tail).length) with
    | error e => rw [hrec] at h; exact absurd h (by simp)
    | ok x =>
      obtain ⟨sub2, path⟩ := x
      rw [hrec] at h
      simp only [Except.ok.injEq, Prod.mk.injEq] at h
      obtain ⟨ht2, hp⟩ := h
      subst ht2
      obtain ⟨n2, hn2, hl, hh, hn⟩ := get_child_rem_frame _ _ sub2 path hrec []
        (Logger.node self.level self.handlers
          (self.name ++ ':' :: ':' :: splitFirst tail) Children.nil)
        (by rw [Logger.nodeAt])
      rw [Logger.nodeAt] at hn2
      injection hn2 with hn2
      subst hn2
      refine ⟨sub2, ?_, ?_, ?_, ?_⟩
      · rw [withChild_withChild, withChild_children, Children.get_insert, if_pos rfl]
      · simpa [Logger.level] using hl
      · simpa [Logger.handlers] using hh
      · simpa [Logger.name] using hn

/-- A second resolution of the same name through `get_logger` returns the
same registry and the same handle. -/
theorem get_logger_idem (name : Str) (t t2 : Logger) (p : List Str)
    (h : get_logger name t = .ok (t2, p)) : get_logger name t2 = .ok (t2, p) := by
  unfold get_logger Logger.get_child at h ⊢
  have hname : t2.name = t.name := by
    obtain ⟨n2, hn2, _, _, hn⟩ := get_child_rem_frame t _ t2 p h [] t (by rw [Logger.nodeAt])
    rw [Logger.nodeAt] at hn2
    injection hn2 with hn2
    subst hn2
    exact hn
  rw [hname]
  exact get_child_rem_idem t _ t2 p h

theorem keysUnique_set_level (n : Logger) (l : LogLevel) (h : keysUnique n) :
    keysUnique (n.set_level l) := by
  intro q m hq
  rw [nodeAt_set_level] at hq
  cases hq0 : n.nodeAt q with
  | none => rw [hq0] at hq; exact absurd hq (by simp)
  | some m0 =>
    rw [hq0] at hq
    simp only [Option.map_some'] at hq
    injection hq with hq
    subst hq
    rw [set_level_keys]
    exact h q m0 hq0

theorem keysUnique_add_handler (n : Logger) (hd : HandlerRef) (h : keysUnique n) :
    keysUnique (n.add_handler hd) := by
  intro q m hq
  rw [nodeAt_add_handler] at hq
  cases hq0 : n.nodeAt q with
  | none => rw [hq0] at hq; exact absurd hq (by simp)
  | some m0 =>
    rw [hq0] at hq
    simp only [Option.map_some'] at hq
    injection hq with hq
    subst hq
    rw [add_handler_keys]
    exact h q m0 hq0

theorem keysUnique_updateAt (t : Logger) (p : List Str) (f : Logger → Logger)
    (h : keysUnique t) (hf : ∀ n, keysUnique n → keysUnique (f n)) :
    keysUnique (t.updateAt p f) := by
  intro q n hq
  by_cases hpq : p <+: q
  · obtain ⟨r, rfl⟩ := hpq
    cases hn : t.nodeAt p with
    | none =>
      rw [updateAt_none p t f hn] at hq
      exact h _ _ hq
    | some m =>
      rw [updateAt_nodeAt p t m f r hn] at hq
      have hm : keysUnique m := fun q2 n2 hq2 =>
        h (p ++ q2) n2 (by rw [nodeAt_append, hn]; simpa using hq2)
      exact hf m hm r n hq
  · have hobs := updateAt_obs_off p t f q hpq
    rw [hq] at hobs
    cases hq0 : t.nodeAt q with
    | none => rw [hq0] at hobs; simp at hobs
    | some n0 =>
      rw [hq0] at hobs
      simp only [Option.map_some', Option.some.injEq, Logger.obs, Prod.mk.injEq] at hobs
      obtain ⟨_, _, _, hkeys⟩ := hobs
      rw [hkeys]
      exact h q n0 hq0

/-- Every single registry operation preserves the at-most-one-child-per-name
property of every children map. -/
theorem step_keysUnique (t : Logger) (op : Op) (h : keysUnique t) :
    keysUnique (step t op) := by
  cases op with
  | resolve name =>
    rw [step]
    cases hres : get_logger name t with
    | ok x =>
      obtain ⟨t2, p⟩ := x
      exact get_child_rem_keysUnique t _ t2 p hres h
    | error e => exact h
  | setLevel p l =>
    rw [step]
    exact keysUnique_updateAt t p _ h (fun n hn => keysUnique_set_level n l hn)
  | addHandler p hd =>
    rw [step]
    exact keysUnique_updateAt t p _ h (fun n hn => keysUnique_add_handler n hd hn)
  | logMsg p msg l => exact h

theorem keysUnique_get_root : keysUnique get_root := by
  intro q n hq
  cases q with
  | nil =>
    rw [Logger.nodeAt] at hq
    injection hq with hq
    subst hq
    simp [get_root, Logger.children, Children.keys]
  | cons j q2 =>
    rw [Logger.nodeAt] at hq
    simp [get_root, Logger.children, Children.get] at hq

/-- Every registry state reachable from the initial root state keeps every
children map free of duplicate keys. -/
theorem foldl_keysUnique (ops : List Op) :
    keysUnique (ops.foldl step get_root) := by
  have hgen : ∀ (l : List Op) (t : Logger), keysUnique t → keysUnique (l.foldl step t) := by
    intro l
    induction l with
    | nil => intro t ht; exact ht
    | cons op l ih => intro t ht; exact ih (step t op) (step_keysUnique t op ht)
  exact hgen ops get_root keysUnique_get_root

theorem updateAt_level_off (t : Logger) (p : List Str) (f : Logger → Logger)
    (q : List Str) (h : ¬ p <+: q) :
    ((t.updateAt p f).nodeAt q).map Logger.level = (t.nodeAt q).map Logger.level := by
  have hobs := updateAt_obs_off p t f q h
  cases h0 : t.nodeAt q with
  | none =>
    rw [h0] at hobs
    cases h1 : (t.updateAt p f).nodeAt q with
    | none => simp
    | some m => rw [h1] at hobs; simp at hobs
  | some n0 =>
    rw [h0] at hobs
    cases h1 : (t.updateAt p f).nodeAt q with
    | none => rw [h1] at hobs; simp at hobs
    | some m =>
      rw [h1] at hobs
      simp only [Option.map_some', Option.some.injEq, Logger.obs, Prod.mk.injEq] at hobs
      simp [hobs.1]

theorem updateAt_handlers_off (t : Logger) (p : List Str) (f : Logger → Logger)
    (q : List Str) (h : ¬ p <+: q) :
    ((t.updateAt p f).nodeAt q).map Logger.handlers =
      (t.nodeAt q).map Logger.handlers := by
  have hobs := updateAt_obs_off p t f q h
  cases h0 : t.nodeAt q with
  | none =>
    rw [h0] at hobs
    cases h1 : (t.updateAt p f).nodeAt q with
    | none => simp
    | some m => rw [h1] at hobs; simp at hobs
  | some n0 =>
    rw [h0] at hobs
    cases h1 : (t.updateAt p f).nodeAt q with
    | none => rw [h1] at hobs; simp at hobs
    | some m =>
      rw [h1] at hobs
      simp only [Option.map_some', Option.some.injEq, Logger.obs, Prod.mk.injEq] at hobs
      simp [hobs.2.1]

theorem uniform_get_root : uniform i32MAX [] get_root := by
  intro q n hq
  cases q with
  | nil =>
    rw [Logger.nodeAt] at hq
    injection hq with hq
    subst hq
    exact ⟨rfl, rfl⟩
  | cons j q2 =>
    rw [Logger.nodeAt] at hq
    simp [get_root, Logger.children, Children.get] at hq

/-- A sequence of resolutions starting from the initial root yields a tree in
which every node still has the initial maximal level and the empty handler
list. -/
theorem resolves_uniform (names : List Str) :
    uniform i32MAX [] ((names.map Op.resolve).foldl step get_root) := by
  have hgen : ∀ (l : List Str) (t : Logger), uniform i32MAX [] t →
      uniform i32MAX [] ((l.map Op.resolve).foldl step t) := by
    intro l
    induction l with
    | nil => intro t ht; exact ht
    | cons nm l ih =>
      intro t ht
      refine ih (step t (.resolve nm)) ?_
      rw [step]
      cases hres : get_logger nm t with
      | ok x =>
        obtain ⟨t2, p⟩ := x
        exact get_child_rem_uniform i32MAX [] t _ t2 p hres ht
      | error e => exact ht
  exact hgen names get_root uniform_get_root

/-- C3: a node with level L invokes its handlers on `log(m, s)` exactly when
`s >= L`: the call is equivalent to an inclusive threshold test, a message at
severity equal to the level is dispatched to every handler, and a message one
below the level is dropped with no handler invoked. -/
theorem claim_C3 : ∀ (t : Logger) (m : Str) (s : LogLevel),
    (t.log m s =
      if t.level ≤ s then t.handlers.map (fun h => ⟨s, m, t.name, h⟩) else [])
    ∧ t.log m t.level = t.handlers.map (fun h => ⟨t.level, m, t.name, h⟩)
    ∧ t.log m (t.level - 1) = [] := by
  intro t m s
  refine ⟨?_, ?_, ?_⟩
  · rw [Logger.log]
    by_cases hlt : s < t.level
    · rw [if_pos hlt, if_neg (not_le.mpr hlt)]
    · rw [if_neg hlt, if_pos (le_of_not_lt hlt)]
  · rw [Logger.log, if_neg (lt_irrefl _)]
  · rw [Logger.log, if_pos (sub_one_lt _)]

/-- C7: when `log(m, s)` passes the threshold it invokes every handler in
`node.handlers`, each exactly once, in insertion order, with the arguments
`(s, m, node.name)`; with handlers [H1, H2] the single call produces the H1
invocation before the H2 invocation, and the root carries the empty name. -/
theorem claim_C7 :
    (∀ (t : Logger) (m : Str) (s : LogLevel), t.level ≤ s →
      t.log m s = t.handlers.map (fun h => ⟨s, m, t.name, h⟩))
    ∧ (∀ (l : LogLevel) (nm : Str) (cs : Children) (H1 H2 : HandlerRef)
        (m : Str) (s : LogLevel), l ≤ s →
        (Logger.node l [H1, H2] nm cs).log m s = [⟨s, m, nm, H1⟩, ⟨s, m, nm, H2⟩])
    ∧ get_root.name = [] := by
  refine ⟨?_, ?_, rfl⟩
  · intro t m s hle
    rw [Logger.log, if_neg (not_lt.mpr hle)]
  · intro l nm cs H1 H2 m s hle
    rw [Logger.log]
    simp only [Logger.level, Logger.handlers, Logger.name]
    rw [if_neg (not_lt.mpr hle)]
    simp

/-- C7 witness: a node with handlers [H1, H2] at level 3 dispatches a message
at severity 5 to H1 first and H2 second. -/
theorem claim_C7_witness :
    (Logger.node 3 [⟨0⟩, ⟨1⟩] [] .nil).log ['m'] 5 =
      [⟨5, ['m'], [], ⟨0⟩⟩, ⟨5, ['m'], [], ⟨1⟩⟩] :=
  claim_C7.2.1 3 [] .nil ⟨0⟩ ⟨1⟩ ['m'] 5 (by decide)

/-- C9: `log` never mutates registry state: the inner `Logger::log` takes a
shared borrow, so the registry step for a log operation returns the tree with
every node (name, level, handlers, children) unchanged. -/
theorem claim_C9 : ∀ (t : Logger) (p : List Str) (m : Str) (s : LogLevel),
    step t (.logMsg p m s) = t
    ∧ (log_op t p m s).1 = t
    ∧ ∀ q, (step t (.logMsg p m s)).nodeAt q = t.nodeAt q := by
  intro t p m s
  exact ⟨rfl, rfl, fun q => rfl⟩

/-- C1: the registry keeps exactly one node per distinct fully-qualified name:
every reachable registry state keeps at most one child per segment name in
every children map, and a second resolution of an already-resolved name
returns the unchanged registry and the same handle path, creating no node. -/
theorem claim_C1 :
    (∀ ops : List Op, keysUnique (ops.foldl step get_root))
    ∧ (∀ (name : Str) (t t2 : Logger) (p : List Str),
        get_logger name t = .ok (t2, p) → get_logger name t2 = .ok (t2, p)) :=
  ⟨foldl_keysUnique, get_logger_idem⟩

/-- C1 witness: the state after resolving `::a` has duplicate-free children
maps, and resolving `::a` in the state where it already exists returns that
state and the same handle. -/
theorem claim_C1_witness :
    keysUnique ([Op.resolve [':', ':', 'a']].foldl step get_root)
    ∧ get_logger [':', ':', 'a']
        (Logger.node i32MAX [] []
          (.cons ['a'] (.node i32MAX [] [':', ':', 'a'] .nil) .nil))
      = .ok (Logger.node i32MAX [] []
          (.cons ['a'] (.node i32MAX [] [':', ':', 'a'] .nil) .nil), [['a']]) :=
  ⟨claim_C1.1 [Op.resolve [':', ':', 'a']],
   claim_C1.2 [':', ':', 'a']
     (Logger.node i32MAX [] [] (.cons ['a'] (.node i32MAX [] [':', ':', 'a'] .nil) .nil))
     (Logger.node i32MAX [] [] (.cons ['a'] (.node i32MAX [] [':', ':', 'a'] .nil) .nil))
     [['a']]
     (by simp [get_logger, Logger.get_child, Logger.get_child_rem, splitFirst,
       Logger.name, Logger.children, Logger.level, Logger.handlers, Children.get,
       Logger.withChild, Children.insert])⟩

/-- C2 (behaviour at the failing input): resolving the name `foo` - the
call the crate documentation itself makes, `Logger::new("foo")` - panics at
the assert of src/logger.rs line 39 instead of returning a handle, because
the name does not start with `::`; no `InvalidPathSegment` error exists
anywhere in the crate.  A name with a trailing separator, `::foo::`, is not
rejected at all: it resolves successfully and creates a node whose final
segment is the empty string. -/
theorem claim_C2 :
    get_logger ['f', 'o', 'o'] get_root = .error ()
    ∧ get_logger [':', ':', 'f', 'o', 'o', ':', ':'] get_root =
      .ok (Logger.node i32MAX [] []
        (.cons ['f', 'o', 'o'] (Logger.node i32MAX [] [':', ':', 'f', 'o', 'o']
          (.cons [] (Logger.node i32MAX [] [':', ':', 'f', 'o', 'o', ':', ':'] .nil)
            .nil)) .nil),
        [['f', 'o', 'o'], []]) := by
  constructor
  · simp [get_logger, Logger.get_child, Logger.get_child_rem, get_root, Logger.name]
  · simp [get_logger, Logger.get_child, Logger.get_child_rem, splitFirst, get_root,
      Logger.name, Logger.children, Logger.level, Logger.handlers, Children.get,
      Logger.withChild, Children.insert]

/-- C4: a node created on first resolution of a segment snapshots the state
of its parent at that moment: its level is the parent level, its handlers are
a copy of the parent handler list, its name extends the parent name; and in
the scenario resolve `::a`, set level 5 on `a`, resolve `::a::b`, the node
`a::b` carries level 5, the parent state current at its creation. -/
theorem claim_C4 :
    (∀ (self : Logger) (tail : Str) (t2 : Logger) (p : List Str),
      self.children.get (splitFirst tail) = none →
      self.get_child_rem (':' :: ':' :: tail) = .ok (t2, p) →
      ∃ c, t2.children.get (splitFirst tail) = some c ∧ c.level = self.level ∧
        c.handlers = self.handlers ∧
        c.name = self.name ++ ':' :: ':' :: splitFirst tail)
    ∧ ((step (step (step get_root (Op.resolve [':', ':', 'a']))
        (Op.setLevel [['a']] 5)) (Op.resolve [':', ':', 'a', ':', ':', 'b'])).nodeAt
      [['a'], ['b']]).map Logger.level = some 5 := by
  constructor
  · exact fun self tail t2 p hget h => get_child_rem_creates self tail t2 p hget h
  · simp [step, get_logger, Logger.get_child, Logger.get_child_rem, splitFirst,
      get_root, Logger.name, Logger.children, Logger.level, Logger.handlers,
      Children.get, Logger.withChild, Children.insert, Logger.updateAt,
      Logger.set_level, setLevelChildren, Logger.nodeAt]

/-- C4 witness: resolving `::a` on the fresh root creates the node `::a`
with the root level and handler list of that moment. -/
theorem claim_C4_witness :
    ∃ c, (Logger.node i32MAX [] []
        (.cons ['a'] (.node i32MAX [] [':', ':', 'a'] .nil) .nil)).children.get
          (splitFirst ['a']) = some c
      ∧ c.level = get_root.level ∧ c.handlers = get_root.handlers
      ∧ c.name = get_root.name ++ ':' :: ':' :: splitFirst ['a'] :=
  claim_C4.1 get_root ['a']
    (Logger.node i32MAX [] [] (.cons ['a'] (.node i32MAX [] [':', ':', 'a'] .nil) .nil))
    [['a']]
    (by simp [get_root, Logger.children, Children.get])
    (by simp [Logger.get_child_rem, splitFirst, get_root, Logger.name, Logger.children,
      Logger.level, Logger.handlers, Children.get, Logger.withChild, Children.insert])

/-- C8 counterexample: the empty path does not resolve to the root - it does
not resolve at all.  `get_logger("")` reaches `get_child` with an empty
remaining slice, which fails the `starts_with("::")` assert and panics. -/
theorem claim_C8_cex : get_logger [] get_root = .error () := by
  simp [get_logger, Logger.get_child, Logger.get_child_rem, get_root, Logger.name]

/-- C8 (amended): the global entry points `logging::set_level` and
`logging::add_handler` act directly on the root node - they equal applying
`set_level` and `add_handler` through the root handle (the empty path) - and
through the recursive propagation they reach every node existing at call
time.  Resolving the empty path, however, is not equivalent: it panics at the
leading-separator assert instead of returning the root handle. -/
theorem claim_C8 :
    (∀ (t : Logger) (l : LogLevel),
      global_set_level t l = t.updateAt [] (fun n => n.set_level l))
    ∧ (∀ (t : Logger) (hd : HandlerRef),
      global_add_handler t hd = t.updateAt [] (fun n => n.add_handler hd))
    ∧ (∀ (t : Logger) (l : LogLevel) (q : List Str) (n : Logger),
        t.nodeAt q = some n →
        ∃ n2, (global_set_level t l).nodeAt q = some n2 ∧ n2.level = l)
    ∧ (∀ (t : Logger) (hd : HandlerRef) (q : List Str) (n : Logger),
        t.nodeAt q = some n →
        ∃ n2, (global_add_handler t hd).nodeAt q = some n2 ∧
          n2.handlers = n.handlers ++ [hd]) := by
  refine ⟨fun t l => rfl, fun t hd => rfl, ?_, ?_⟩
  · intro t l q n hq
    refine ⟨n.set_level l, ?_, set_level_level n l⟩
    rw [global_set_level, nodeAt_set_level, hq, Option.map_some']
  · intro t hd q n hq
    refine ⟨n.add_handler hd, ?_, add_handler_handlers n hd⟩
    rw [global_add_handler, nodeAt_add_handler, hq, Option.map_some']

/-- C8 witness: the global level update sets level 5 on the root of the fresh
registry, and the global handler update appends one handler there. -/
theorem claim_C8_witness :
    (∃ n2, (global_set_level get_root 5).nodeAt [] = some n2 ∧ n2.level = 5)
    ∧ (∃ n2, (global_add_handler get_root ⟨0⟩).nodeAt [] = some n2 ∧
        n2.handlers = get_root.handlers ++ [⟨0⟩]) :=
  ⟨claim_C8.2.2.1 get_root 5 [] get_root rfl,
   claim_C8.2.2.2 get_root ⟨0⟩ [] get_root rfl⟩

/-- C5: `set_level(L)` through a handle gives level L to the addressed node
and to every node of its subtree at call time; every node outside that
subtree, its ancestors included, keeps its previous level; running the
same call twice in a row yields the same registry state as running it once;
and a node created afterwards receives its level only through the snapshot of
the then-current level of its parent at creation. -/
theorem claim_C5 : ∀ (t : Logger) (p : List Str) (n : Logger) (L : LogLevel),
    t.nodeAt p = some n →
    (∀ (r : List Str) (n2 : Logger),
        (step t (.setLevel p L)).nodeAt (p ++ r) = some n2 → n2.level = L)
    ∧ (∀ q, ¬ p <+: q →
        ((step t (.setLevel p L)).nodeAt q).map Logger.level =
          (t.nodeAt q).map Logger.level)
    ∧ step (step t (.setLevel p L)) (.setLevel p L) = step t (.setLevel p L)
    ∧ (∀ (parent : Logger) (tail : Str) (t2 : Logger) (p2 : List Str),
        parent.children.get (splitFirst tail) = none →
        parent.get_child_rem (':' :: ':' :: tail) = .ok (t2, p2) →
        ∃ c, t2.children.get (splitFirst tail) = some c ∧ c.level = parent.level)
    := by
  intro t p n L hp
  refine ⟨?_, ?_, ?_, ?_⟩
  · intro r n2 h2
    rw [step, updateAt_nodeAt p t n _ r hp, nodeAt_set_level] at h2
    cases h0 : n.nodeAt r with
    | none => rw [h0] at h2; exact absurd h2 (by simp)
    | some m =>
      rw [h0, Option.map_some'] at h2
      injection h2 with h2
      subst h2
      exact set_level_level m L
  · intro q hq
    rw [step]
    exact updateAt_level_off t p _ q hq
  · show (t.updateAt p (fun x => x.set_level L)).updateAt p (fun x => x.set_level L)
        = t.updateAt p (fun x => x.set_level L)
    rw [updateAt_updateAt]
    congr 1
    funext x
    exact set_level_idem x L
  · intro parent tail t2 p2 hget h2
    obtain ⟨c, hc, hl, _, _⟩ := get_child_rem_creates parent tail t2 p2 hget h2
    exact ⟨c, hc, hl⟩

/-- C5 witness: with node `::a` resolved, setting level 5 on it twice in a
row produces the same registry state as setting it once. -/
theorem claim_C5_witness :
    step (step (Logger.node i32MAX [] []
        (.cons ['a'] (.node i32MAX [] [':', ':', 'a'] .nil) .nil)) (.setLevel [['a']] 5))
      (.setLevel [['a']] 5)
    = step (Logger.node i32MAX [] []
        (.cons ['a'] (.node i32MAX [] [':', ':', 'a'] .nil) .nil)) (.setLevel [['a']] 5) :=
  (claim_C5 _ [['a']] (.node i32MAX [] [':', ':', 'a'] .nil) 5
    (by simp [Logger.nodeAt, Logger.children, Children.get])).2.2.1

/-- C6: `add_handler(h)` through a handle appends h at the end of the handler
list of the addressed node and of every node of its subtree at call time,
leaving nodes outside the subtree untouched and removing or deduplicating
nothing; and across every single registry operation, the handler list of
every existing node before the operation is a prefix of its handler list
after it. -/
theorem claim_C6 :
    (∀ (t : Logger) (p : List Str) (n : Logger) (hd : HandlerRef),
      t.nodeAt p = some n →
      (∀ (r : List Str) (m : Logger), t.nodeAt (p ++ r) = some m →
        ∃ m2, (step t (.addHandler p hd)).nodeAt (p ++ r) = some m2 ∧
          m2.handlers = m.handlers ++ [hd])
      ∧ (∀ q, ¬ p <+: q →
          ((step t (.addHandler p hd)).nodeAt q).map Logger.handlers =
            (t.nodeAt q).map Logger.handlers))
    ∧ (∀ (t : Logger) (op : Op) (q : List Str) (m : Logger),
        t.nodeAt q = some m →
        ∃ m2, (step t op).nodeAt q = some m2 ∧ m.handlers <+: m2.handlers) := by
  constructor
  · intro t p n hd hp
    constructor
    · intro r m hm
      rw [nodeAt_append, hp] at hm
      refine ⟨m.add_handler hd, ?_, add_handler_handlers m hd⟩
      rw [step, updateAt_nodeAt p t n _ r hp, nodeAt_add_handler]
      rw [show n.nodeAt r = some m from hm, Option.map_some']
    · intro q hq
      rw [step]
      exact updateAt_handlers_off t p _ q hq
  · intro t op q m hm
    cases op with
    | resolve name =>
      rw [step]
      cases hres : get_logger name t with
      | ok x =>
        obtain ⟨t2, p2⟩ := x
        obtain ⟨m2, hm2, _, hh, _⟩ := get_child_rem_frame t _ t2 p2 hres q m hm
        exact ⟨m2, hm2, by rw [hh]⟩
      | error e => exact ⟨m, hm, List.prefix_refl _⟩
    | setLevel p l =>
      rw [step]
      by_cases hpq : p <+: q
      · obtain ⟨r, rfl⟩ := hpq
        cases hn : t.nodeAt p with
        | none =>
          rw [updateAt_none p t _ hn]
          exact ⟨m, hm, List.prefix_refl _⟩
        | some k =>
          rw [updateAt_nodeAt p t k _ r hn, nodeAt_set_level]
          rw [nodeAt_append, hn] at hm
          rw [show k.nodeAt r = some m from hm, Option.map_some']
          exact ⟨m.set_level l, rfl, by rw [set_level_handlers]⟩
      · have hoff := updateAt_handlers_off t p (fun x => x.set_level l) q hpq
        rw [hm, Option.map_some'] at hoff
        cases h1 : (t.updateAt p (fun x => x.set_level l)).nodeAt q with
        | none => rw [h1] at hoff; simp at hoff
        | some m2 =>
          rw [h1, Option.map_some'] at hoff
          injection hoff with hoff
          refine ⟨m2, rfl, ?_⟩
          rw [hoff]
    | addHandler p hd =>
      rw [step]
      by_cases hpq : p <+: q
      · obtain ⟨r, rfl⟩ := hpq
        cases hn : t.nodeAt p with
        | none =>
          rw [updateAt_none p t _ hn]
          exact ⟨m, hm, List.prefix_refl _⟩
        | some k =>
          rw [updateAt_nodeAt p t k _ r hn, nodeAt_add_handler]
          rw [nodeAt_append, hn] at hm
          rw [show k.nodeAt r = some m from hm, Option.map_some']
          exact ⟨m.add_handler hd, rfl, by
            rw [add_handler_handlers]
            exact List.prefix_append _ _⟩
      · have hoff := updateAt_handlers_off t p (fun x => x.add_handler hd) q hpq
        rw [hm, Option.map_some'] at hoff
        cases h1 : (t.updateAt p (fun x => x.add_handler hd)).nodeAt q with
        | none => rw [h1] at hoff; simp at hoff
        | some m2 =>
          rw [h1, Option.map_some'] at hoff
          injection hoff with hoff
          refine ⟨m2, rfl, ?_⟩
          rw [hoff]
    | logMsg p msg l => exact ⟨m, hm, List.prefix_refl _⟩

/-- C6 witness: adding a handler through the root handle of the fresh
registry appends it to the root handler list, and a log operation leaves the
root handler list a prefix of itself. -/
theorem claim_C6_witness :
    (∃ m2, (step get_root (.addHandler [] ⟨0⟩)).nodeAt [] = some m2 ∧
      m2.handlers = get_root.handlers ++ [⟨0⟩])
    ∧ (∃ m2, (step get_root (.logMsg [] ['m'] 0)).nodeAt [] = some m2 ∧
      get_root.handlers <+: m2.handlers) :=
  ⟨(claim_C6.1 get_root [] get_root ⟨0⟩ rfl).1 [] get_root rfl,
   claim_C6.2 get_root (.logMsg [] ['m'] 0) [] get_root rfl⟩

/-- C10: the root node is initialized on first use with level `LogLevel::MAX`
(the log-nothing sentinel, the maximal i32) and, with the default console
feature disabled, an empty handler list; before any level update every
resolved logger inherits exactly that level and empty handler list, and a
node at the maximal level drops every message of severity below it. -/
theorem claim_C10 :
    (get_root.level = i32MAX ∧ get_root.handlers = [] ∧ i32MAX = 2147483647)
    ∧ (∀ names : List Str,
        uniform i32MAX [] ((names.map Op.resolve).foldl step get_root))
    ∧ (∀ (t : Logger) (m : Str) (s : LogLevel),
        t.level = i32MAX → s < i32MAX → t.log m s = []) := by
  refine ⟨⟨rfl, rfl, rfl⟩, resolves_uniform, ?_⟩
  intro t m s hl hs
  rw [Logger.log, if_pos (by rw [hl]; exact hs)]

/-- C10 witness: after resolving `::a` from the fresh root every node has the
maximal level and no handlers, and the fresh root drops a message at severity
60 (`FATAL`). -/
theorem claim_C10_witness :
    uniform i32MAX [] (([[':', ':', 'a']].map Op.resolve).foldl step get_root)
    ∧ get_root.log ['m'] 60 = [] :=
  ⟨claim_C10.2.1 [[':', ':', 'a']],
   claim_C10.2.2 get_root ['m'] 60 rfl (by decide)⟩

/-- Consistency of stored names: every child entry of every node is named by
the parent name extended with the separator and the entry key.  This is the
exact property `Logger::get_child` relies on when it recomputes
`remaining = name[self.name.len()..]` at each recursive entry. -/
def namesOk (t : Logger) : Prop :=
  ∀ (q : List Str) (n : Logger) (k : Str) (c : Logger),
    t.nodeAt q = some n → n.children.get k = some c →
      c.name = n.name ++ ':' :: ':' :: k

theorem updateAt_name_off (t : Logger) (p : List Str) (f : Logger → Logger)
    (q : List Str) (h : ¬ p <+: q) :
    ((t.updateAt p f).nodeAt q).map Logger.name = (t.nodeAt q).map Logger.name := by
  have hobs := updateAt_obs_off p t f q h
  cases h0 : t.nodeAt q with
  | none =>
    rw [h0] at hobs
    cases h1 : (t.updateAt p f).nodeAt q with
    | none => simp
    | some m => rw [h1] at hobs; simp at hobs
  | some n0 =>
    rw [h0] at hobs
    cases h1 : (t.updateAt p f).nodeAt q with
    | none => rw [h1] at hobs; simp at hobs
    | some m =>
      rw [h1] at hobs
      simp only [Option.map_some', Option.some.injEq, Logger.obs, Prod.mk.injEq] at hobs
      simp [hobs.2.2.1]

/-- A handle mutation whose payload preserves every node name pointwise
preserves every node name of the whole registry. -/
theorem nameAt_updateAt (t : Logger) (p : List Str) (f : Logger → Logger)
    (hf : ∀ (x : Logger) (r : List Str),
      ((f x).nodeAt r).map Logger.name = (x.nodeAt r).map Logger.name) :
    ∀ q, ((t.updateAt p f).nodeAt q).map Logger.name =
      (t.nodeAt q).map Logger.name := by
  intro q
  by_cases hpq : p <+: q
  · obtain ⟨r, rfl⟩ := hpq
    cases hn : t.nodeAt p with
    | none => rw [updateAt_none p t f hn]
    | some m =>
      rw [updateAt_nodeAt p t m f r hn, hf m r, nodeAt_append, hn]
      rfl
  · exact updateAt_name_off t p f q hpq

theorem nameAt_set_level (t : Logger) (l : LogLevel) (r : List Str) :
    ((t.set_level l).nodeAt r).map Logger.name = (t.nodeAt r).map Logger.name := by
  rw [nodeAt_set_level]
  cases h0 : t.nodeAt r with
  | none => simp
  | some m => simp [set_level_name]

theorem nameAt_add_handler (t : Logger) (hd : HandlerRef) (r : List Str) :
    ((t.add_handler hd).nodeAt r).map Logger.name = (t.nodeAt r).map Logger.name := by
  rw [nodeAt_add_handler]
  cases h0 : t.nodeAt r with
  | none => simp
  | some m => simp [add_handler_name]

/-- A registry whose node names agree pointwise with a name-consistent
registry is itself name-consistent. -/
theorem namesOk_of_nameAt (t t2 : Logger)
    (hnames : ∀ q, (t2.nodeAt q).map Logger.name = (t.nodeAt q).map Logger.name)
    (h : namesOk t) : namesOk t2 := by
  intro q n k c hn hc
  have hck : t2.nodeAt (q ++ [k]) = some c := by
    rw [nodeAt_append, hn]
    show n.nodeAt [k] = some c
    rw [Logger.nodeAt, hc]
    rfl
  have h1 := hnames q
  rw [hn, Option.map_some'] at h1
  have h2 := hnames (q ++ [k])
  rw [hck, Option.map_some'] at h2
  cases h0 : t.nodeAt q with
  | none => rw [h0] at h1; simp at h1
  | some n0 =>
    rw [h0, Option.map_some'] at h1
    injection h1 with h1
    cases h3 : t.nodeAt (q ++ [k]) with
    | none => rw [h3] at h2; simp at h2
    | some c0 =>
      rw [h3, Option.map_some'] at h2
      injection h2 with h2
      rw [nodeAt_append, h0] at h3
      have h4 : n0.nodeAt [k] = some c0 := h3
      rw [Logger.nodeAt] at h4
      cases h5 : n0.children.get k with
      | none => rw [h5] at h4; exact absurd h4 (by simp)
      | some c1 =>
        rw [h5] at h4
        have h6 : some c1 = some c0 := h4
        injection h6 with h6
        subst h6
        rw [h2, h1]
        exact h q n0 k c1 h0 h5

/-- Resolution preserves name consistency: every node it creates is named by
the name of its parent extended with the separator and its key
(src/logger.rs line 47). -/
theorem get_child_rem_namesOk (self : Logger) (rem : Str) :
    ∀ (t2 : Logger) (p : List Str), self.get_child_rem rem = .ok (t2, p) →
      namesOk self → namesOk t2 := by
  induction self, rem using Logger.get_child_rem.induct
  case case1 =>
    rename_i self tail sub_name sub_logger hget hlen
    intro t2 p h hno
    rw [Logger.get_child_rem.eq_def] at h
    simp only [hget, if_pos hlen] at h
    simp only [Except.ok.injEq, Prod.mk.injEq] at h
    obtain ⟨ht2, hp⟩ := h
    subst ht2
    exact hno
  case case2 =>
    rename_i self tail sub_name sub_logger hget sub2 path hrec hlen ih
    intro t2 p h hno
    rw [Logger.get_child_rem.eq_def] at h
    simp only [hget, if_neg hlen, hrec] at h
    simp only [Except.ok.injEq, Prod.mk.injEq] at h
    obtain ⟨ht2, hp⟩ := h
    subst ht2
    have hno_sub : namesOk sub_logger := by
      intro q n k c hn hc
      exact hno (splitFirst tail :: q) n k c (by rw [Logger.nodeAt, hget]; exact hn) hc
    have hno2 := ih sub2 path hrec hno_sub
    have hname_sub2 : sub2.name = sub_logger.name := by
      obtain ⟨n2, hn2, _, _, hn⟩ := get_child_rem_frame sub_logger _ sub2 path hrec []
        sub_logger (by rw [Logger.nodeAt])
      rw [Logger.nodeAt] at hn2
      injection hn2 with hn2
      subst hn2
      exact hn
    intro q n k c hn hc
    cases q with
    | nil =>
      rw [Logger.nodeAt] at hn
      injection hn with hn
      subst hn
      rw [withChild_children, Children.get_insert] at hc
      by_cases hk : k = splitFirst tail
      · rw [if_pos hk] at hc
        injection hc with hc
        subst hc
        rw [withChild_name, hname_sub2, hk]
        exact hno [] self (splitFirst tail) sub_logger (by rw [Logger.nodeAt]) hget
      · rw [if_neg hk] at hc
        rw [withChild_name]
        exact hno [] self k c (by rw [Logger.nodeAt]) hc
    | cons j q2 =>
      rw [Logger.nodeAt, withChild_children, Children.get_insert] at hn
      by_cases hj : j = splitFirst tail
      · rw [if_pos hj] at hn
        exact hno2 q2 n k c hn hc
      · rw [if_neg hj] at hn
        exact hno (j :: q2) n k c (by rw [Logger.nodeAt]; exact hn) hc
  case case3 =>
    rename_i self tail sub_name sub_logger hget e hrec hlen ih
    intro t2 p h
    rw [Logger.get_child_rem.eq_def] at h
    have hlen2 : ¬ (splitFirst tail).length = tail.length := by
      intro hc
      apply hlen
      show (splitFirst tail).length + 2 = (':' :: ':' :: tail).length
      simp [hc]
    simp [hget, hrec, hlen2] at h
  case case4 =>
    rename_i self tail sub_name hget hlen
    intro t2 p h hno
    rw [Logger.get_child_rem.eq_def] at h
    simp only [hget, if_pos hlen] at h
    simp only [Except.ok.injEq, Prod.mk.injEq] at h
    obtain ⟨ht2, hp⟩ := h
    subst ht2
    intro q n k c hn hc
    cases q with
    | nil =>
      rw [Logger.nodeAt] at hn
      injection hn with hn
      subst hn
      rw [withChild_children, Children.get_insert] at hc
      by_cases hk : k = splitFirst tail
      · rw [if_pos hk] at hc
        injection hc with hc
        subst hc
        rw [withChild_name]
        simp [Logger.name, hk]
      · rw [if_neg hk] at hc
        rw [withChild_name]
        exact hno [] self k c (by rw [Logger.nodeAt]) hc
    | cons j q2 =>
      rw [Logger.nodeAt, withChild_children, Children.get_insert] at hn
      by_cases hj : j = splitFirst tail
      · rw [if_pos hj] at hn
        cases q2 with
        | nil =>
          have hn2 : some (Logger.node self.level self.handlers
              (self.name ++ ':' :: ':' :: splitFirst tail) Children.nil) = some n := hn
          injection hn2 with hn2
          subst hn2
          exact absurd hc (by simp [Logger.children, Children.get])
        | cons j2 q3 =>
          exact absurd (show (none : Option Logger) = some n from hn) (by simp)
      · rw [if_neg hj] at hn
        exact hno (j :: q2) n k c (by rw [Logger.nodeAt]; exact hn) hc
  case case5 =>
    rename_i self tail sub_name hget logger sub2 path hrec hlen ih
    intro t2 p h hno
    rw [Logger.get_child_rem.eq_def] at h
    simp only [hget, if_neg hlen, hrec] at h
    rw [withChild_withChild] at h
    simp only [Except.ok.injEq, Prod.mk.injEq] at h
    obtain ⟨ht2, hp⟩ := h
    subst ht2
    have hno_leaf : namesOk (Logger.node self.level self.handlers
        (self.name ++ ':' :: ':' :: splitFirst tail) Children.nil) := by
      intro q n k c hn hc
      cases q with
      | nil =>
        rw [Logger.nodeAt] at hn
        injection hn with hn
        subst hn
        exact absurd hc (by simp [Logger.children, Children.get])
      | cons j2 q3 =>
        rw [Logger.nodeAt] at hn
        simp [Logger.children, Children.get] at hn
    have hno2 := ih sub2 path hrec hno_leaf
    have hname_sub2 : sub2.name = self.name ++ ':' :: ':' :: splitFirst tail := by
      obtain ⟨n2, hn2, _, _, hn⟩ := get_child_rem_frame _ _ sub2 path hrec []
        (Logger.node self.level self.handlers
          (self.name ++ ':' :: ':' :: splitFirst tail) Children.nil)
        (by rw [Logger.nodeAt])
      rw [Logger.nodeAt] at hn2
      injection hn2 with hn2
      subst hn2
      simpa [Logger.name] using hn
    intro q n k c hn hc
    cases q with
    | nil =>
      rw [Logger.nodeAt] at hn
      injection hn with hn
      subst hn
      rw [withChild_children, Children.get_insert] at hc
      by_cases hk : k = splitFirst tail
      · rw [if_pos hk] at hc
        injection hc with hc
        subst hc
        rw [withChild_name, hname_sub2, hk]
      · rw [if_neg hk] at hc
        rw [withChild_name]
        exact hno [] self k c (by rw [Logger.nodeAt]) hc
    | cons j q2 =>
      rw [Logger.nodeAt, withChild_children, Children.get_insert] at hn
      by_cases hj : j = splitFirst tail
      · rw [if_pos hj] at hn
        exact hno2 q2 n k c hn hc
      · rw [if_neg hj] at hn
        exact hno (j :: q2) n k c (by rw [Logger.nodeAt]; exact hn) hc
  case case6 =>
    rename_i self tail sub_name hget logger e hrec hlen ih
    intro t2 p h
    rw [Logger.get_child_rem.eq_def] at h
    have hlen2 : ¬ (splitFirst tail).length = tail.length := by
      intro hc
      apply hlen
      show (splitFirst tail).length + 2 = (':' :: ':' :: tail).length
      simp [hc]
    simp [hget, hrec, hlen2] at h
  case case7 =>
    rename_i self rem hsep
    intro t2 p h
    rw [get_child_rem_not_sep self rem (fun tail h2 => hsep tail h2)] at h
    exact absurd h (by simp)

/-- Every single registry operation preserves name consistency. -/
theorem step_namesOk (t : Logger) (op : Op) (h : namesOk t) :
    namesOk (step t op) := by
  cases op with
  | resolve name =>
    rw [step]
    cases hres : get_logger name t with
    | ok x =>
      obtain ⟨t2, p⟩ := x
      exact get_child_rem_namesOk t _ t2 p hres h
    | error e => exact h
  | setLevel p l =>
    rw [step]
    exact namesOk_of_nameAt t _
      (nameAt_updateAt t p _ (fun x r => nameAt_set_level x l r)) h
  | addHandler p hd =>
    rw [step]
    exact namesOk_of_nameAt t _
      (nameAt_updateAt t p _ (fun x r => nameAt_add_handler x hd r)) h
  | logMsg p msg l => exact h

theorem namesOk_get_root : namesOk get_root := by
  intro q n k c hn hc
  cases q with
  | nil =>
    rw [Logger.nodeAt] at hn
    injection hn with hn
    subst hn
    exact absurd hc (by simp [get_root, Logger.children, Children.get])
  | cons j q2 =>
    rw [Logger.nodeAt] at hn
    simp [get_root, Logger.children, Children.get] at hn

/-- In every registry state reachable from the initial root, the stored name
of every child equals the parent name extended by the separator and the key:
exactly the invariant under which carrying the remaining slice through the
recursion of `get_child` coincides with recomputing it from the stored name,
as the source does. -/
theorem foldl_namesOk (ops : List Op) : namesOk (ops.foldl step get_root) := by
  have hgen : ∀ (l : List Op) (t : Logger), namesOk t → namesOk (l.foldl step t) := by
    intro l
    induction l with
    | nil => intro t ht; exact ht
    | cons op l ih => intro t ht; exact ih (step t op) (step_namesOk t op ht)
  exact hgen ops get_root namesOk_get_root
